import Mathlib

/-!
Verification of the `convert_to_c_header.py` pipeline: a frame binarizer
(threshold at 128) followed by a run-length encoder producing tokens of the
form `count:value` joined by single spaces.

Python strings are modelled as `List Char`; frames are two-dimensional grids
of grayscale pixel intensities modelled as `List (List Nat)`.
-/

namespace BadApple

/-- Decimal digit characters, used to model Python's `str`/f-string rendering
of a nonnegative integer. -/
def digitChar (d : Nat) : Char := Char.ofNat (48 + d)

/-- Fuel-driven accumulator loop producing the decimal digits of `n`
(most significant first), prepended to `acc`. -/
def natToDigitsAux : Nat → Nat → List Char → List Char
  | 0, _, acc => acc
  | fuel + 1, n, acc =>
    if n < 10 then digitChar n :: acc
    else natToDigitsAux fuel (n / 10) (digitChar (n % 10) :: acc)

/-- Decimal rendering of a natural number, modelling `f"{count}"`. -/
def natToDigits (n : Nat) : List Char := natToDigitsAux (n + 1) n []

/-- The loop body of `rle_encode`: `prev` is `prev_char`, `count` the current
run length, and the argument list the remaining characters (`data[1:]` on the
first call).  On a change of character the pending token is emitted
(`encoded.append(f"{count}:{prev_char}")`); after the loop the final pending
token is appended. -/
def rleTokens (prev : Char) (count : Nat) : List Char → List (Nat × Char)
  | [] => [(count, prev)]
  | c :: rest =>
    if c = prev then rleTokens prev (count + 1) rest
    else (count, prev) :: rleTokens c 1 rest

/-- The token sequence produced by `rle_encode` on `data`: empty input yields
no tokens, otherwise the loop starts with `prev_char = data[0]`, `count = 1`. -/
def rle_tokens : List Char → List (Nat × Char)
  | [] => []
  | c :: rest => rleTokens c 1 rest

/-- Textual rendering of one token, `f"{count}:{prev_char}"`. -/
def renderToken (t : Nat × Char) : List Char := natToDigits t.1 ++ ':' :: [t.2]

/-- `rle_encode` from `convert_to_c_header.py`: run-length encode a string,
rendering each run as `count:value` and joining the tokens with single
spaces (`" ".join(encoded)`); empty input returns the empty string. -/
def rle_encode (data : List Char) : List Char :=
  List.intercalate [' '] ((rle_tokens data).map renderToken)

/-- Decoding a token sequence: expand each token `(count, value)` into
`count` repetitions of `value` and concatenate the expansions in order. -/
def rleDecode (tokens : List (Nat × Char)) : List Char :=
  (tokens.map fun t => List.replicate t.1 t.2).flatten

/-- The binarizer's threshold, from
`cv2.threshold(frame, 128, 1, cv2.THRESH_BINARY)`: a pixel strictly greater
than 128 becomes 1, otherwise 0. -/
def binarize_pixel (p : Nat) : Nat := if 128 < p then 1 else 0

/-- `str(pixel)` for a thresholded pixel: the single decimal digit character
of the binarized value (which is always 0 or 1). -/
def pixelChar (p : Nat) : Char := digitChar (binarize_pixel p)

/-- The bits contributed by one frame: the 2-D binary frame is flattened in
row-major order and each pixel rendered as its character. -/
def frameBits (frame : List (List Nat)) : List Char :=
  frame.flatten.map pixelChar

/-- The bit string built by the main loop: each frame's characters are
appended in decode order and joined into one string. -/
def bitStream (frames : List (List (List Nat))) : List Char :=
  (frames.map frameBits).flatten

/-- The whole pipeline of `main`: build the bit string, then RLE-encode it. -/
def pipeline_encode (frames : List (List (List Nat))) : List Char :=
  rle_encode (bitStream frames)

/-! ### Helper lemmas about the encoder loop -/

/-- Expanding the tokens of the loop run from state `(prev, count)` yields
`count` copies of `prev` followed by the remaining input. -/
lemma rleDecode_rleTokens (rest : List Char) :
    ∀ prev count, rleDecode (rleTokens prev count rest) =
      List.replicate count prev ++ rest := by
  induction rest with
  | nil =>
    intro prev count
    simp [rleTokens, rleDecode]
  | cons c rest ih =>
    intro prev count
    by_cases h : c = prev
    · subst h
      have hr : rleTokens c count (c :: rest) = rleTokens c (count + 1) rest := by
        simp [rleTokens]
      rw [hr, ih, List.replicate_succ' count c, List.append_assoc]
      simp
    · simp only [rleTokens, if_neg h, rleDecode, List.map_cons, List.flatten_cons]
      have := ih c 1
      simp only [rleDecode] at this
      rw [this]
      simp

/-- The loop always emits at least one token. -/
lemma rleTokens_ne_nil (rest : List Char) :
    ∀ prev count, rleTokens prev count rest ≠ [] := by
  induction rest with
  | nil => intro prev count; simp [rleTokens]
  | cons c rest ih =>
    intro prev count
    by_cases h : c = prev
    · simpa [rleTokens, h] using ih prev (count + 1)
    · simp [rleTokens, h]

/-- The first token the loop emits carries the current run's character. -/
lemma rleTokens_head_snd (rest : List Char) :
    ∀ prev count h, ((rleTokens prev count rest).head h).2 = prev := by
  induction rest with
  | nil => intro prev count h; simp [rleTokens]
  | cons c rest ih =>
    intro prev count h
    by_cases hc : c = prev
    · simp only [rleTokens, if_pos hc, hc] at h ⊢
      exact ih prev (count + 1) _
    · simp [rleTokens, hc]

/-- Adjacent tokens emitted by the loop carry distinct characters. -/
lemma rleTokens_chain' (rest : List Char) :
    ∀ prev count, List.Chain' (fun a b : Nat × Char => a.2 ≠ b.2)
      (rleTokens prev count rest) := by
  induction rest with
  | nil => intro prev count; simp [rleTokens]
  | cons c rest ih =>
    intro prev count
    by_cases h : c = prev
    · simpa [rleTokens, h] using ih prev (count + 1)
    · simp only [rleTokens, if_neg h]
      rw [List.chain'_cons']
      refine ⟨?_, ih c 1⟩
      intro y hy
      rw [List.head?_eq_head (rleTokens_ne_nil rest c 1)] at hy
      cases hy
      rw [rleTokens_head_snd]
      exact fun hpc => h hpc.symm

/-- Every count the loop emits is at least the (positive) running count. -/
lemma rleTokens_count_pos (rest : List Char) :
    ∀ prev count, 1 ≤ count →
      ∀ t ∈ rleTokens prev count rest, 1 ≤ t.1 := by
  induction rest with
  | nil =>
    intro prev count hcount t ht
    simp only [rleTokens, List.mem_singleton] at ht
    subst ht; exact hcount
  | cons c rest ih =>
    intro prev count hcount t ht
    by_cases h : c = prev
    · simp only [rleTokens, if_pos h] at ht
      exact ih prev (count + 1) (by omega) t ht
    · simp only [rleTokens, if_neg h, List.mem_cons] at ht
      rcases ht with rfl | ht
      · exact hcount
      · exact ih c 1 le_rfl t ht

/-- Every character appearing as a token value comes from the loop state or
the remaining input. -/
lemma rleTokens_snd_mem (rest : List Char) :
    ∀ prev count, ∀ t ∈ rleTokens prev count rest,
      t.2 = prev ∨ t.2 ∈ rest := by
  induction rest with
  | nil =>
    intro prev count t ht
    simp only [rleTokens, List.mem_singleton] at ht
    subst ht; exact Or.inl rfl
  | cons c rest ih =>
    intro prev count t ht
    by_cases h : c = prev
    · simp only [rleTokens, if_pos h] at ht
      rcases ih prev (count + 1) t ht with h1 | h1
      · exact Or.inl h1
      · exact Or.inr (List.mem_cons_of_mem c h1)
    · simp only [rleTokens, if_neg h, List.mem_cons] at ht
      rcases ht with rfl | ht
      · exact Or.inl rfl
      · rcases ih c 1 t ht with h1 | h1
        · exact Or.inr (h1 ▸ List.mem_cons_self c rest)
        · exact Or.inr (List.mem_cons_of_mem c h1)

/-- A character is a bit character when it is `'0'` or `'1'`. -/
def isBit (c : Char) : Bool := c == '0' || c == '1'

/-- A token's value is a bit character. -/
def tokenBit (t : Nat × Char) : Bool := isBit t.2

/-! ### Digit-character lemmas -/

lemma natToDigitsAux_mem {P : Char → Prop} (hP : ∀ d, d < 10 → P (digitChar d)) :
    ∀ fuel n acc, (∀ c ∈ acc, P c) → ∀ c ∈ natToDigitsAux fuel n acc, P c := by
  intro fuel
  induction fuel with
  | zero => intro n acc hacc c hc; exact hacc c hc
  | succ fuel ih =>
    intro n acc hacc c hc
    by_cases h : n < 10
    · simp only [natToDigitsAux, if_pos h, List.mem_cons] at hc
      rcases hc with rfl | hc
      · exact hP n h
      · exact hacc c hc
    · simp only [natToDigitsAux, if_neg h] at hc
      refine ih (n / 10) _ ?_ c hc
      intro c' hc'
      rcases List.mem_cons.mp hc' with rfl | hc'
      · exact hP (n % 10) (Nat.mod_lt _ (by omega))
      · exact hacc c' hc'

lemma natToDigits_mem {P : Char → Prop} (hP : ∀ d, d < 10 → P (digitChar d))
    (n : Nat) : ∀ c ∈ natToDigits n, P c :=
  natToDigitsAux_mem hP (n + 1) n [] (by simp)

lemma space_not_mem_natToDigits (n : Nat) : ' ' ∉ natToDigits n := by
  intro h
  exact natToDigits_mem (P := fun c => c ≠ ' ') (by decide) n ' ' h rfl

lemma space_not_mem_renderToken (t : Nat × Char) (ht : t.2 = '0' ∨ t.2 = '1') :
    ' ' ∉ renderToken t := by
  simp only [renderToken, List.mem_append, List.mem_cons, List.mem_singleton]
  rintro (h | h | h)
  · exact space_not_mem_natToDigits t.1 h
  · exact absurd h (by decide)
  · rcases ht with ht | ht <;> rw [ht] at h <;> exact absurd h (by decide)

lemma rle_tokens_nonempty (data : List Char) (h : data ≠ []) :
    rle_tokens data ≠ [] := by
  cases data with
  | nil => exact absurd rfl h
  | cons c rest => exact rleTokens_ne_nil rest c 1

lemma rle_tokens_values_binary (data : List Char)
    (hbin : ∀ c ∈ data, c = '0' ∨ c = '1') :
    ∀ t ∈ rle_tokens data, t.2 = '0' ∨ t.2 = '1' := by
  intro t ht
  cases data with
  | nil => simp [rle_tokens] at ht
  | cons c rest =>
    rcases rleTokens_snd_mem rest c 1 t ht with h | h
    · rw [h]; exact hbin c (List.mem_cons_self c rest)
    · exact hbin t.2 (List.mem_cons_of_mem c h)

/-! ### Claim theorems -/

/-- C1: For every input string, expanding each token `(count, value)` of the
output of `rle_encode` into `count` repetitions of `value` and concatenating
the expansions in token order reproduces the original input exactly. -/
theorem rle_roundTrip (data : List Char) :
    rleDecode (rle_tokens data) = data := by
  cases data with
  | nil => rfl
  | cons c rest => simpa using rleDecode_rleTokens rest c 1

/-- C2: In the token sequence produced by `rle_encode`, every pair of
adjacent tokens has differing values. -/
theorem rle_adjacent_values_differ (data : List Char) :
    List.Chain' (fun a b : Nat × Char => a.2 ≠ b.2) (rle_tokens data) := by
  cases data with
  | nil => simp [rle_tokens]
  | cons c rest => exact rleTokens_chain' rest c 1

/-- C3: Every token emitted by `rle_encode` has a count of at least 1; no
zero-count token ever appears. -/
theorem rle_count_pos (data : List Char) :
    ∀ t ∈ rle_tokens data, 1 ≤ t.1 := by
  intro t ht
  cases data with
  | nil => simp [rle_tokens] at ht
  | cons c rest => exact rleTokens_count_pos rest c 1 le_rfl t ht

theorem rle_count_pos_witness :
    (3, '0') ∈ rle_tokens ['0', '0', '0'] ∧ 1 ≤ ((3, '0') : Nat × Char).1 :=
  ⟨by decide, rle_count_pos ['0', '0', '0'] (3, '0') (by decide)⟩

/-- C4: Encoding the empty bitstream is not an error: `rle_encode` applied to
the empty string returns the empty string. -/
theorem rle_encode_empty : rle_encode [] = [] := rfl

/-- C5: The binarizer's threshold is strict greater-than on 128: intensity
128 yields bit 0, intensity 129 yields bit 1, any intensity above 128 yields
bit 1, and any intensity at or below 128 yields bit 0. -/
theorem threshold_boundary :
    binarize_pixel 128 = 0 ∧ binarize_pixel 129 = 1 ∧
    (∀ i : Nat, 128 < i → binarize_pixel i = 1) ∧
    (∀ i : Nat, i ≤ 128 → binarize_pixel i = 0) := by
  refine ⟨by decide, by decide, ?_, ?_⟩
  · intro i hi
    unfold binarize_pixel
    rw [if_pos hi]
  · intro i hi
    unfold binarize_pixel
    rw [if_neg (by omega)]

theorem threshold_boundary_witness :
    (128 < 200 ∧ binarize_pixel 200 = 1) ∧ (5 ≤ 128 ∧ binarize_pixel 5 = 0) :=
  ⟨⟨by decide, threshold_boundary.2.2.1 200 (by decide)⟩,
   ⟨by decide, threshold_boundary.2.2.2 5 (by decide)⟩⟩

/-- C6: For every non-empty binary input, the rendered output of `rle_encode`
splits on the space character into exactly the token renderings — each token
is the decimal count, then `':'`, then the bit character — so tokens are
joined by single spaces with no trailing separator, and every token value is
`'0'` or `'1'`. -/
theorem rle_encode_rendering (data : List Char) (hne : data ≠ [])
    (hbin : ∀ c ∈ data, c = '0' ∨ c = '1') :
    (rle_encode data).splitOn ' ' = (rle_tokens data).map renderToken ∧
    (rle_tokens data).all tokenBit = true := by
  have hvals := rle_tokens_values_binary data hbin
  constructor
  · unfold rle_encode
    refine List.splitOn_intercalate _ ' ' ?_ ?_
    · intro l hl
      rcases List.mem_map.mp hl with ⟨t, ht, rfl⟩
      exact space_not_mem_renderToken t (hvals t ht)
    · intro hmap
      exact rle_tokens_nonempty data hne (List.map_eq_nil_iff.mp hmap)
  · rw [List.all_eq_true]
    intro t ht
    rcases hvals t ht with h | h <;> simp [tokenBit, isBit, h]

theorem rle_encode_rendering_witness :
    (rle_encode ['0', '1']).splitOn ' ' = (rle_tokens ['0', '1']).map renderToken ∧
    (rle_tokens ['0', '1']).all tokenBit = true :=
  rle_encode_rendering ['0', '1'] (by decide) (by decide)

/-- C7 counterexample: on the non-binary input `"2"` the encoder does not
abort: it returns the Encoded Output `"1:2"`. -/
theorem rle_encode_nonbinary_output : rle_encode ['2'] = ['1', ':', '2'] := by
  decide

/-- C7 amended: the encoder performs no input validation — any single
character, binary or not, is run-length encoded like any other and appears
verbatim in its token; no error is raised and the value is never coerced. -/
theorem rle_encode_no_validation (c : Char) :
    rle_encode [c] = ['1', ':', c] := rfl

/-- C8: Two single-pixel frames whose pixels binarize to 1 and 1 followed by
a single-pixel frame binarizing to 0 produce the bitstream `"110"` with
Encoded Output `"2:1 1:0"`; in general the bitstream of a frame sequence
equals the bits of the single frame obtained by concatenating all rows, so
runs span frame boundaries transparently. -/
theorem frames_concat_transparent :
    bitStream [[[200]], [[200]], [[50]]] = ['1', '1', '0'] ∧
    pipeline_encode [[[200]], [[200]], [[50]]] = ['2', ':', '1', ' ', '1', ':', '0'] ∧
    ∀ frames : List (List (List Nat)), bitStream frames = frameBits frames.flatten := by
  refine ⟨by decide, by decide, ?_⟩
  intro frames
  induction frames with
  | nil => rfl
  | cons f fs ih =>
    simp only [bitStream, frameBits, List.map_cons, List.flatten_cons,
      List.flatten_append, List.map_append] at ih ⊢
    rw [ih]

/-- C9: Encoding the bitstream `"000111000"` yields `"3:0 3:1 3:0"`. -/
theorem rle_encode_example :
    rle_encode ['0', '0', '0', '1', '1', '1', '0', '0', '0'] =
      ['3', ':', '0', ' ', '3', ':', '1', ' ', '3', ':', '0'] := by
  decide

/-- C10: For every sequence of frames, the bit string handed to `rle_encode`
by the main loop contains only the characters `'0'` and `'1'`. -/
theorem bitStream_binary (frames : List (List (List Nat))) :
    ∀ c ∈ bitStream frames, c = '0' ∨ c = '1' := by
  intro c hc
  simp only [bitStream, frameBits, List.mem_flatten, List.mem_map] at hc
  obtain ⟨l, ⟨fr, _, rfl⟩, hcl⟩ := hc
  obtain ⟨p, _, rfl⟩ := List.mem_map.mp hcl
  unfold pixelChar binarize_pixel
  by_cases h : 128 < p
  · rw [if_pos h]; exact Or.inr (by decide)
  · rw [if_neg h]; exact Or.inl (by decide)

theorem bitStream_binary_witness :
    '1' ∈ bitStream [[[200]]] ∧ ('1' = '0' ∨ '1' = '1') :=
  ⟨by decide, bitStream_binary [[[200]]] '1' (by decide)⟩

end BadApple
